import Mathlib

/-!
Verification of the Samarium fluorescence spectral-convolution pipeline.

Shallow embedding of the computational cells of `Samarium_Fluorescence.ipynb`
(the Lorentzian evaluator, the frequency-grid builder, the spectral profile
generator, the convolution engine, the saturation model and the inhomogeneous
integrator) over the real numbers, together with theorems settling the frozen
claims about that code.

Numpy primitives are embedded as follows:
* `np.arange(start, stop, step)` produces the values `start + i*step` for
  `0 ≤ i < ⌈(stop-start)/step⌉` (endpoint excluded);
* `np.linspace(start, stop, num)` produces the `num` values
  `start + i*(stop-start)/(num-1)` (endpoint included);
* `np.convolve(a, v, 'full')` produces the length `len(a)+len(v)-1` array
  whose `k`-th entry is `∑ j, a[j]*v[k-j]` over the indices in range.
-/

open BigOperators

noncomputable section

namespace Samarium

/-- The function `Lorentz(omega, omega_0, Gamma)` from the notebook's Functions cell:
`1/(np.pi * (Gamma/2)) * 1 / (1 + ((omega - omega_0)/(Gamma/2))**2)`. -/
def Lorentz (w w0 Gamma : ℝ) : ℝ :=
  1 / (Real.pi * (Gamma / 2)) * (1 / (1 + ((w - w0) / (Gamma / 2)) ^ 2))

/-- Length of `np.arange(start, stop, step)`: `⌈(stop - start)/step⌉`,
clamped at zero. -/
def arangeLen (start stop step : ℝ) : ℕ :=
  (⌈(stop - start) / step⌉).toNat

/-- Embeds `np.arange(start, stop, step)`: uniformly spaced samples starting at
`start`, excluding `stop`. -/
def arange (start stop step : ℝ) : List ℝ :=
  (List.range (arangeLen start stop step)).map fun i : ℕ => start + (i : ℝ) * step

/-- Embeds `np.linspace(start, stop, num)`: `num` uniformly spaced samples from
`start` to `stop`, endpoint included. -/
def linspace (start stop : ℝ) (num : ℕ) : List ℝ :=
  (List.range num).map fun i : ℕ => start + (i : ℝ) * ((stop - start) / ((num : ℝ) - 1))

/-- The source line `larger_line = np.max((Gamma_L, Gamma_H))`. -/
def larger_line (Gamma_L Gamma_H : ℝ) : ℝ := max Gamma_L Gamma_H

/-- The source line `d_omega = larger_line / 100001`, the angular frequency spacing. -/
def d_omega (Gamma_L Gamma_H : ℝ) : ℝ := larger_line Gamma_L Gamma_H / 100001

/-- The source line `omega = np.arange(-3*Gamma_L/2, 3*Gamma_L/2, d_omega)`: the laser axis. -/
def omega (Gamma_L Gamma_H : ℝ) : List ℝ :=
  arange (-(3 * Gamma_L) / 2) (3 * Gamma_L / 2) (d_omega Gamma_L Gamma_H)

/-- The source line `omega_0 = np.arange(-3*Gamma_H/2, 3*Gamma_H/2, d_omega)`: the atomic axis. -/
def omega_0 (Gamma_L Gamma_H : ℝ) : List ℝ :=
  arange (-(3 * Gamma_H) / 2) (3 * Gamma_H / 2) (d_omega Gamma_L Gamma_H)

/-- The source line `omega_tot = np.linspace(-3*Gamma_L/2 - 3*Gamma_H/2, 3*Gamma_L/2 + 3*Gamma_H/2,
num=(len(omega) + len(omega_0) - 1))`: the combined convolution axis. -/
def omega_tot (Gamma_L Gamma_H : ℝ) : List ℝ :=
  linspace (-(3 * Gamma_L) / 2 - 3 * Gamma_H / 2) (3 * Gamma_L / 2 + 3 * Gamma_H / 2)
    ((omega Gamma_L Gamma_H).length + (omega_0 Gamma_L Gamma_H).length - 1)

/-- The source line `Phi_omega = Phi * Lorentz(omega, 0.0, Gamma_L)`: photon flux per unit
frequency on the laser axis. -/
def Phi_omega (Phi Gamma_L Gamma_H : ℝ) : List ℝ :=
  (omega Gamma_L Gamma_H).map fun w => Phi * Lorentz w 0 Gamma_L

/-- The source line `sigma_omega_0 = sigma * (np.pi * Gamma_H / 2.0) * Lorentz(omega_0, 0.0, Gamma_H)`:
frequency-dependent cross-section on the atomic axis. -/
def sigma_omega_0 (sigma Gamma_L Gamma_H : ℝ) : List ℝ :=
  (omega_0 Gamma_L Gamma_H).map fun w => sigma * (Real.pi * Gamma_H / 2) * Lorentz w 0 Gamma_H

/-- Embeds `np.convolve(a, v, 'full')`: the full discrete convolution, entry `k` being
`∑ j, a[j] * v[k-j]` with out-of-range indices contributing zero. -/
def npConvolve (a v : List ℝ) : List ℝ :=
  (List.range (a.length + v.length - 1)).map fun k : ℕ =>
    ∑ j in Finset.range a.length, a.getD j 0 * (if j ≤ k then v.getD (k - j) 0 else 0)

/-- The convolution engine applied to two arbitrary profiles and a step:
`np.convolve(a, v, 'full') * d_omega`. -/
def convolveScaled (a v : List ℝ) (dw : ℝ) : List ℝ :=
  (npConvolve a v).map fun x => x * dw

/-- The source line `R_omega_0 = np.convolve(Phi_omega, sigma_omega_0, 'full') * d_omega`:
the stimulated absorption rate on the combined axis. -/
def R_omega_0 (Phi sigma Gamma_L Gamma_H : ℝ) : List ℝ :=
  convolveScaled (Phi_omega Phi Gamma_L Gamma_H) (sigma_omega_0 sigma Gamma_L Gamma_H)
    (d_omega Gamma_L Gamma_H)

/-- The source line `N_Inhom_omega_0 = N_Inhom * Lorentz(omega_tot, 0.0, Gamma_In)`: atoms per
frequency bin on the combined axis. -/
def N_Inhom_omega_0 (N Gamma_L Gamma_H Gamma_In : ℝ) : List ℝ :=
  (omega_tot Gamma_L Gamma_H).map fun w => N * Lorentz w 0 Gamma_In

/-- The per-bin saturation map `R / (Gamma_Ex + 2 * R)` used in
`Frac_omega_0 = R_omega_0 / (Gamma_Ex + 2 * R_omega_0)`. -/
def FracFn (Gamma_Ex R : ℝ) : ℝ := R / (Gamma_Ex + 2 * R)

/-- The source line `Frac_omega_0 = R_omega_0 / (Gamma_Ex + 2 * R_omega_0)`: fraction of atoms
excited in each frequency bin. -/
def Frac_omega_0 (Phi sigma Gamma_L Gamma_H Gamma_Ex : ℝ) : List ℝ :=
  (R_omega_0 Phi sigma Gamma_L Gamma_H).map (FracFn Gamma_Ex)

/-- The source line `Gamma_Sc = Gamma_Ex * np.sum(N_Inhom_omega_0 * d_omega * Frac_omega_0)`:
the total scattering rate from the inhomogeneous integrator. -/
def Gamma_Sc (Phi sigma N Gamma_L Gamma_H Gamma_Ex Gamma_In : ℝ) : ℝ :=
  Gamma_Ex * (List.zipWith (fun n f => n * d_omega Gamma_L Gamma_H * f)
    (N_Inhom_omega_0 N Gamma_L Gamma_H Gamma_In)
    (Frac_omega_0 Phi sigma Gamma_L Gamma_H Gamma_Ex)).sum

/-- The normalized Lorentzian density exactly as the spec's §4.1 writes it:
`L(x) = (1/π)·(Γ/2) / [(x−x0)² + (Γ/2)²]`. -/
def specLorentz (x x0 Gamma : ℝ) : ℝ :=
  (1 / Real.pi) * (Gamma / 2) / ((x - x0) ^ 2 + (Gamma / 2) ^ 2)

/-- The saturation formula exactly as the spec's §4.5 writes it:
`P_Ex = (R/Γ_Ex) / (1 + 2·R/Γ_Ex)`. -/
def specFrac (Gamma_Ex R : ℝ) : ℝ := (R / Gamma_Ex) / (1 + 2 * R / Gamma_Ex)

end Samarium

end

namespace Samarium

/-! General helper lemmas about the list combinators -/

lemma sum_map_range (f : ℕ → ℝ) (n : ℕ) :
    ((List.range n).map f).sum = ∑ i in Finset.range n, f i := by
  induction n with
  | zero => simp
  | succ n ih =>
    rw [List.range_succ, List.map_append, List.sum_append, Finset.sum_range_succ, ih]
    simp

lemma getD_range_map (f : ℕ → ℝ) {n i : ℕ} (h : i < n) :
    ((List.range n).map f).getD i 0 = f i := by
  simp [List.getD_eq_getElem?_getD, List.getElem?_range h]

lemma getD_range_map_ge (f : ℕ → ℝ) {n i : ℕ} (h : n ≤ i) :
    ((List.range n).map f).getD i 0 = 0 := by
  rw [List.getD_eq_getElem?_getD, List.getElem?_eq_none (by simpa using h)]
  rfl

lemma zipWith_range_sum (F : ℝ → ℝ → ℝ) (f g : ℕ → ℝ) (n : ℕ) :
    (List.zipWith F ((List.range n).map f) ((List.range n).map g)).sum
      = ∑ i in Finset.range n, F (f i) (g i) := by
  rw [List.zipWith_map, List.zipWith_same, sum_map_range]

/-! Arithmetic facts about the saturation map -/

lemma fracFn_nonneg {g R : ℝ} (hg : 0 < g) (hR : 0 ≤ R) : 0 ≤ FracFn g R := by
  unfold FracFn
  positivity

lemma fracFn_lt_half {g R : ℝ} (hg : 0 < g) (hR : 0 ≤ R) : FracFn g R < 1 / 2 := by
  unfold FracFn
  rw [div_lt_div_iff₀ (by linarith) (by norm_num)]
  linarith

lemma fracFn_strictMono {g R1 R2 : ℝ} (hg : 0 < g) (hR1 : 0 ≤ R1) (h12 : R1 < R2) :
    FracFn g R1 < FracFn g R2 := by
  unfold FracFn
  rw [div_lt_div_iff₀ (by linarith) (by linarith)]
  nlinarith

lemma fracFn_mono {g R1 R2 : ℝ} (hg : 0 < g) (hR1 : 0 ≤ R1) (h12 : R1 ≤ R2) :
    FracFn g R1 ≤ FracFn g R2 := by
  rcases eq_or_lt_of_le h12 with rfl | h
  · exact le_refl _
  · exact le_of_lt (fracFn_strictMono hg hR1 h)

lemma fracFn_eq_specFrac {g : ℝ} (R : ℝ) (hg : 0 < g) : FracFn g R = specFrac g R := by
  unfold FracFn specFrac
  have hg' : g ≠ 0 := ne_of_gt hg
  have h1 : 1 + 2 * R / g = (g + 2 * R) / g := by field_simp
  rw [h1]
  rcases eq_or_ne (g + 2 * R) 0 with h0 | h0
  · rw [h0, div_zero, zero_div, div_zero]
  · rw [div_div_div_eq, mul_comm R g, mul_div_mul_left _ _ hg']

/-! Claims C3 and C8 -/

/-- C3. Saturation bound and monotonicity: for every `Gamma_Ex > 0` the per-bin
excitation fraction `R / (Gamma_Ex + 2R)` computed by the code equals the
spec's formula `(R/Gamma_Ex) / (1 + 2R/Gamma_Ex)`, lies in `[0, 1/2)` for all
finite `R ≥ 0`, and is strictly increasing in `R` there. -/
theorem C3_saturation_bound_mono (g R R2 : ℝ) (hg : 0 < g) :
    FracFn g R = specFrac g R ∧
    (0 ≤ R → 0 ≤ FracFn g R ∧ FracFn g R < 1 / 2) ∧
    (0 ≤ R → R < R2 → FracFn g R < FracFn g R2) := by
  refine ⟨fracFn_eq_specFrac R hg, fun hR => ⟨fracFn_nonneg hg hR, fracFn_lt_half hg hR⟩,
    fun hR h12 => fracFn_strictMono hg hR h12⟩

theorem C3_saturation_bound_mono_witness :
    (0:ℝ) < 1 ∧
    (FracFn 1 0 = specFrac 1 0 ∧
      ((0:ℝ) ≤ 0 → 0 ≤ FracFn 1 0 ∧ FracFn 1 0 < 1 / 2) ∧
      ((0:ℝ) ≤ 0 → (0:ℝ) < 1 → FracFn 1 0 < FracFn 1 1)) :=
  ⟨by norm_num, C3_saturation_bound_mono 1 0 1 (by norm_num)⟩

/-- C8. Lorentzian evaluator correctness: for every `Gamma > 0`, offset `x` and
center `x0`, the code's algebraic form
`1/(π(Γ/2)) · 1/(1 + ((x−x0)/(Γ/2))²)` equals the spec's normalized Lorentzian
density `(1/π)·(Γ/2) / ((x−x0)² + (Γ/2)²)`. -/
theorem C8_lorentz_eq_spec (x x0 Gamma : ℝ) (hG : 0 < Gamma) :
    Lorentz x x0 Gamma = specLorentz x x0 Gamma := by
  unfold Lorentz specLorentz
  have hpi : Real.pi ≠ 0 := Real.pi_ne_zero
  have hG2 : Gamma / 2 ≠ 0 := by positivity
  have hd : (x - x0) ^ 2 + (Gamma / 2) ^ 2 ≠ 0 := by positivity
  field_simp
  ring

theorem C8_lorentz_eq_spec_witness :
    (0:ℝ) < 2 ∧ Lorentz 1 0 2 = specLorentz 1 0 2 :=
  ⟨by norm_num, C8_lorentz_eq_spec 1 0 2 (by norm_num)⟩

/-! Grid builder lemmas -/

lemma arange_length (a b s : ℝ) : (arange a b s).length = arangeLen a b s := by
  rw [arange, List.length_map, List.length_range]

lemma arange_getD {a b s : ℝ} {i : ℕ} (h : i < arangeLen a b s) :
    (arange a b s).getD i 0 = a + i * s := by
  unfold arange
  exact getD_range_map _ h

lemma linspace_length (a b : ℝ) (num : ℕ) : (linspace a b num).length = num := by
  rw [linspace, List.length_map, List.length_range]

lemma linspace_getD {a b : ℝ} {num i : ℕ} (h : i < num) :
    (linspace a b num).getD i 0 = a + i * ((b - a) / ((num : ℝ) - 1)) := by
  unfold linspace
  exact getD_range_map _ h

lemma arangeLen_pos {a b s : ℝ} (h : 0 < (b - a) / s) : 0 < arangeLen a b s := by
  unfold arangeLen
  have h1 : 0 < ⌈(b - a) / s⌉ := Int.ceil_pos.mpr h
  omega

lemma arangeLen_eq_of_div {a b s : ℝ} {n : ℕ} (h : (b - a) / s = n) : arangeLen a b s = n := by
  unfold arangeLen
  rw [h, Int.ceil_natCast, Int.toNat_natCast]

lemma d_omega_pos {gl gh : ℝ} (hL : 0 < gl) (hH : 0 < gh) : 0 < d_omega gl gh := by
  unfold d_omega larger_line
  have h : 0 < max gl gh := lt_max_iff.mpr (Or.inl hL)
  positivity

lemma omega_length_pos {gl gh : ℝ} (hL : 0 < gl) (hH : 0 < gh) :
    0 < (omega gl gh).length := by
  rw [omega, arange_length]
  apply arangeLen_pos
  have hd := d_omega_pos hL hH
  have hspan : 0 < 3 * gl / 2 - -(3 * gl) / 2 := by linarith
  positivity

lemma omega_0_length_pos {gl gh : ℝ} (hL : 0 < gl) (hH : 0 < gh) :
    0 < (omega_0 gl gh).length := by
  rw [omega_0, arange_length]
  apply arangeLen_pos
  have hd := d_omega_pos hL hH
  have hspan : 0 < 3 * gh / 2 - -(3 * gh) / 2 := by linarith
  positivity

lemma omega_tot_length (gl gh : ℝ) :
    (omega_tot gl gh).length = (omega gl gh).length + (omega_0 gl gh).length - 1 := by
  rw [omega_tot, linspace_length]

lemma arangeLen_omega_11 :
    arangeLen (-(3 * (1:ℝ)) / 2) (3 * (1:ℝ) / 2) (d_omega 1 1) = 300003 := by
  apply arangeLen_eq_of_div
  unfold d_omega larger_line
  rw [max_self]
  norm_num

lemma omega_11_length : (omega 1 1).length = 300003 := by
  rw [omega, arange_length]
  exact arangeLen_omega_11

lemma omega_0_11_length : (omega_0 1 1).length = 300003 := by
  rw [omega_0, arange_length]
  exact arangeLen_omega_11

/-! Claim C1: grid alignment -/

/-- C1 counterexample: at `Gamma_L = Gamma_H = 1` the combined axis's sample at
index 1 is `-3 + 6/600004`, not `laser-min + atomic-min + 1·d_omega = -3 + 1/100001`;
the combined axis does not share the step `d_omega`. -/
theorem C1_counterexample :
    (omega_tot 1 1).getD 1 0
      ≠ (omega 1 1).getD 0 0 + (omega_0 1 1).getD 0 0 + 1 * d_omega 1 1 := by
  have hn : (omega 1 1).length + (omega_0 1 1).length - 1 = 600005 := by
    rw [omega_11_length, omega_0_11_length]
  have h2 : (omega 1 1).getD 0 0 = -(3 * (1:ℝ)) / 2 := by
    unfold omega
    rw [arange_getD (by rw [arangeLen_omega_11]; norm_num)]
    norm_num
  have h3 : (omega_0 1 1).getD 0 0 = -(3 * (1:ℝ)) / 2 := by
    unfold omega_0
    rw [arange_getD (by rw [arangeLen_omega_11]; norm_num)]
    norm_num
  rw [omega_tot, hn, linspace_getD (show 1 < 600005 by norm_num), h2, h3]
  unfold d_omega larger_line
  rw [max_self]
  norm_num

/-- C1 as amended: for positive linewidths the combined axis is uniformly spaced
and its sample at index `i` equals laser-min + atomic-min + `i` times the
combined step `(3Γ_L + 3Γ_H)/(num − 1)` — which differs slightly from `d_omega`;
only the laser and atomic axes share the step `d_omega`. -/
theorem C1_amended_alignment (gl gh : ℝ) (i : ℕ) (hL : 0 < gl) (hH : 0 < gh)
    (hi : i < (omega gl gh).length + (omega_0 gl gh).length - 1) :
    (omega_tot gl gh).getD i 0
      = (omega gl gh).getD 0 0 + (omega_0 gl gh).getD 0 0
        + i * ((3 * gl + 3 * gh) /
            ((((omega gl gh).length + (omega_0 gl gh).length - 1 : ℕ) : ℝ) - 1)) := by
  have hd := d_omega_pos hL hH
  have h2 : (omega gl gh).getD 0 0 = -(3 * gl) / 2 := by
    unfold omega
    rw [arange_getD]
    · norm_num
    · apply arangeLen_pos
      have hspan : 0 < 3 * gl / 2 - -(3 * gl) / 2 := by linarith
      positivity
  have h3 : (omega_0 gl gh).getD 0 0 = -(3 * gh) / 2 := by
    unfold omega_0
    rw [arange_getD]
    · norm_num
    · apply arangeLen_pos
      have hspan : 0 < 3 * gh / 2 - -(3 * gh) / 2 := by linarith
      positivity
  rw [omega_tot, linspace_getD hi, h2, h3]
  ring_nf

theorem C1_amended_alignment_witness :
    (0:ℝ) < 1 ∧
    (omega_tot 1 1).getD 0 0
      = (omega 1 1).getD 0 0 + (omega_0 1 1).getD 0 0
        + (0 : ℕ) * ((3 * (1:ℝ) + 3 * 1) /
            ((((omega 1 1).length + (omega_0 1 1).length - 1 : ℕ) : ℝ) - 1)) :=
  ⟨by norm_num, C1_amended_alignment 1 1 0 (by norm_num) (by norm_num)
    (by rw [omega_11_length, omega_0_11_length]; norm_num)⟩

/-! Claim C4: grid axis construction -/

lemma arangeLen_cast_eq_ceil {a b s : ℝ} (h : 0 < (b - a) / s) :
    ((arangeLen a b s : ℕ) : ℝ) = (⌈(b - a) / s⌉ : ℤ) := by
  unfold arangeLen
  have hpos : (0:ℤ) ≤ ⌈(b - a) / s⌉ := le_of_lt (Int.ceil_pos.mpr h)
  exact_mod_cast congrArg (fun z : ℤ => (z : ℝ)) (Int.toNat_of_nonneg hpos)

lemma arange_last_lt {a b s : ℝ} (hs : 0 < s) (h : 0 < b - a) :
    a + ((arangeLen a b s : ℕ) - 1 : ℝ) * s < b := by
  have hx : 0 < (b - a) / s := div_pos h hs
  have hceil : (⌈(b - a) / s⌉ : ℝ) < (b - a) / s + 1 := Int.ceil_lt_add_one _
  have hcast := arangeLen_cast_eq_ceil hx
  have hlt : ((arangeLen a b s : ℕ) : ℝ) - 1 < (b - a) / s := by
    rw [hcast]; linarith
  have hmul := (mul_lt_mul_right hs).mpr hlt
  rw [div_mul_cancel₀ _ (ne_of_gt hs)] at hmul
  linarith

/-- C4 counterexample: at `Gamma_L = Gamma_H = 1` the step is `1/100001`, not
`max(Gamma_L,Gamma_H)/100000` as the claim states, and the last element of the
laser axis is strictly below `+1.5 Gamma_L`, not equal to it. -/
theorem C4_counterexample :
    d_omega 1 1 ≠ larger_line 1 1 / 100000 ∧
    (omega 1 1).getD ((omega 1 1).length - 1) 0 ≠ 3 * (1:ℝ) / 2 := by
  constructor
  · unfold d_omega larger_line
    rw [max_self]
    norm_num
  · rw [omega_11_length]
    unfold omega
    rw [arange_getD (by rw [arangeLen_omega_11]; norm_num)]
    unfold d_omega larger_line
    rw [max_self]
    norm_num

/-- C4 as amended: for positive linewidths the laser axis is strictly
increasing and uniformly spaced with step `d_omega = max(Γ_L,Γ_H)/100001`
(not `/100000`), its first element is `-1.5Γ_L`, and its last element lies
strictly below `+1.5Γ_L` (the endpoint is excluded by `np.arange`); the atomic
axis likewise starts at `-1.5Γ_H` and ends strictly below `+1.5Γ_H`. -/
theorem C4_amended_axes (gl gh : ℝ) (i : ℕ) (hL : 0 < gl) (hH : 0 < gh)
    (hi : i + 1 < (omega gl gh).length) :
    d_omega gl gh = max gl gh / 100001 ∧
    (omega gl gh).getD 0 0 = -(3 * gl) / 2 ∧
    (omega gl gh).getD (i + 1) 0 - (omega gl gh).getD i 0 = d_omega gl gh ∧
    (omega gl gh).getD i 0 < (omega gl gh).getD (i + 1) 0 ∧
    (omega gl gh).getD ((omega gl gh).length - 1) 0 < 3 * gl / 2 ∧
    (omega_0 gl gh).getD 0 0 = -(3 * gh) / 2 ∧
    (omega_0 gl gh).getD ((omega_0 gl gh).length - 1) 0 < 3 * gh / 2 := by
  have hd := d_omega_pos hL hH
  have hlenL : 0 < (omega gl gh).length := omega_length_pos hL hH
  have hlenH : 0 < (omega_0 gl gh).length := omega_0_length_pos hL hH
  have hlenLe : (omega gl gh).length = arangeLen (-(3 * gl) / 2) (3 * gl / 2) (d_omega gl gh) := by
    rw [omega, arange_length]
  have hlenHe : (omega_0 gl gh).length = arangeLen (-(3 * gh) / 2) (3 * gh / 2) (d_omega gl gh) := by
    rw [omega_0, arange_length]
  have hiL : i + 1 < arangeLen (-(3 * gl) / 2) (3 * gl / 2) (d_omega gl gh) := by
    rw [← hlenLe]; exact hi
  have hgetD : ∀ j : ℕ, j < arangeLen (-(3 * gl) / 2) (3 * gl / 2) (d_omega gl gh) →
      (omega gl gh).getD j 0 = -(3 * gl) / 2 + (j : ℝ) * d_omega gl gh := by
    intro j hj
    unfold omega
    exact arange_getD hj
  have hgetD0 : ∀ j : ℕ, j < arangeLen (-(3 * gh) / 2) (3 * gh / 2) (d_omega gl gh) →
      (omega_0 gl gh).getD j 0 = -(3 * gh) / 2 + (j : ℝ) * d_omega gl gh := by
    intro j hj
    unfold omega_0
    exact arange_getD hj
  refine ⟨rfl, ?_, ?_, ?_, ?_, ?_, ?_⟩
  · rw [hgetD 0 (by omega)]
    norm_num
  · rw [hgetD _ hiL, hgetD i (by omega)]
    push_cast
    ring
  · rw [hgetD _ hiL, hgetD i (by omega)]
    push_cast
    nlinarith
  · have hspan : 0 < 3 * gl / 2 - -(3 * gl) / 2 := by linarith
    have hlast := arange_last_lt hd hspan
    rw [hgetD ((omega gl gh).length - 1) (by omega)]
    have hcast : (((omega gl gh).length - 1 : ℕ) : ℝ)
        = ((arangeLen (-(3 * gl) / 2) (3 * gl / 2) (d_omega gl gh) : ℕ) : ℝ) - 1 := by
      rw [hlenLe] at hlenL ⊢
      push_cast [Nat.cast_sub hlenL]
      ring
    rw [hcast]
    exact hlast
  · rw [hgetD0 0 (by omega)]
    norm_num
  · have hspan : 0 < 3 * gh / 2 - -(3 * gh) / 2 := by linarith
    have hlast := arange_last_lt hd hspan
    rw [hgetD0 ((omega_0 gl gh).length - 1) (by omega)]
    have hcast : (((omega_0 gl gh).length - 1 : ℕ) : ℝ)
        = ((arangeLen (-(3 * gh) / 2) (3 * gh / 2) (d_omega gl gh) : ℕ) : ℝ) - 1 := by
      rw [hlenHe] at hlenH ⊢
      push_cast [Nat.cast_sub hlenH]
      ring
    rw [hcast]
    exact hlast

theorem C4_amended_axes_witness :
    (0:ℝ) < 1 ∧
    (d_omega 1 1 = max 1 1 / 100001 ∧
      (omega 1 1).getD 0 0 = -(3 * (1:ℝ)) / 2 ∧
      (omega 1 1).getD (0 + 1) 0 - (omega 1 1).getD 0 0 = d_omega 1 1 ∧
      (omega 1 1).getD 0 0 < (omega 1 1).getD (0 + 1) 0 ∧
      (omega 1 1).getD ((omega 1 1).length - 1) 0 < 3 * (1:ℝ) / 2 ∧
      (omega_0 1 1).getD 0 0 = -(3 * (1:ℝ)) / 2 ∧
      (omega_0 1 1).getD ((omega_0 1 1).length - 1) 0 < 3 * (1:ℝ) / 2) :=
  ⟨by norm_num, C4_amended_axes 1 1 0 (by norm_num) (by norm_num)
    (by rw [omega_11_length]; norm_num)⟩

/-! Claim C6: input validation -/

/-- C6 counterexample: with the non-positive linewidths
`Gamma_L = Gamma_H = -1` the grid builder does not reject the input; it
constructs a full 300003-point laser axis. -/
theorem C6_counterexample : (omega (-1) (-1)).length = 300003 := by
  rw [omega, arange_length]
  apply arangeLen_eq_of_div
  unfold d_omega larger_line
  rw [max_self]
  norm_num

/-- C6 as amended: the code performs no input validation at all: for any
negative linewidth `γ` supplied for both `Gamma_L` and `Gamma_H`, grid
construction still proceeds and produces a 300003-point axis — which is even
decreasing, since the step is negative. Positivity is the caller's
responsibility. -/
theorem C6_amended_no_validation (γ : ℝ) (h : γ < 0) :
    (omega γ γ).length = 300003 ∧ (omega γ γ).getD 1 0 < (omega γ γ).getD 0 0 := by
  have hγ : γ ≠ 0 := ne_of_lt h
  have hlen : arangeLen (-(3 * γ) / 2) (3 * γ / 2) (d_omega γ γ) = 300003 := by
    apply arangeLen_eq_of_div
    unfold d_omega larger_line
    rw [max_self]
    field_simp
    ring
  constructor
  · rw [omega, arange_length, hlen]
  · unfold omega
    rw [arange_getD (by rw [hlen]; norm_num), arange_getD (by rw [hlen]; norm_num)]
    have hd : d_omega γ γ < 0 := by
      unfold d_omega larger_line
      rw [max_self]
      linarith
    push_cast
    nlinarith

theorem C6_amended_no_validation_witness :
    (-1 : ℝ) < 0 ∧
    ((omega (-1) (-1)).length = 300003 ∧
      (omega (-1) (-1)).getD 1 0 < (omega (-1) (-1)).getD 0 0) :=
  ⟨by norm_num, C6_amended_no_validation (-1) (by norm_num)⟩

/-! Claim C2: convolution engine -/

lemma getD_nonneg_of_forall {l : List ℝ} (h : ∀ x ∈ l, 0 ≤ x) (j : ℕ) : 0 ≤ l.getD j 0 := by
  rw [List.getD_eq_getElem?_getD]
  cases hj : l[j]? with
  | none => simp
  | some x =>
    simp only [Option.getD_some]
    exact h x (List.getElem?_mem hj)

lemma getD_eq_zero_of_ge {l : List ℝ} {j : ℕ} (h : l.length ≤ j) : l.getD j 0 = 0 := by
  rw [List.getD_eq_getElem?_getD, List.getElem?_eq_none h]
  rfl

lemma convolveScaled_eq_range_map (a v : List ℝ) (dw : ℝ) :
    convolveScaled a v dw = (List.range (a.length + v.length - 1)).map
      (fun k : ℕ => (∑ j in Finset.range a.length,
        a.getD j 0 * (if j ≤ k then v.getD (k - j) 0 else 0)) * dw) := by
  unfold convolveScaled npConvolve
  rw [List.map_map]
  rfl

lemma conv_sum_eq (a v : List ℝ) (k : ℕ) :
    ∑ j in Finset.range a.length, a.getD j 0 * (if j ≤ k then v.getD (k - j) 0 else 0)
      = ∑ j in Finset.range (k + 1), a.getD j 0 * v.getD (k - j) 0 := by
  have hM1 : a.length ≤ max a.length (k + 1) := le_max_left _ _
  have hM2 : k + 1 ≤ max a.length (k + 1) := le_max_right _ _
  have h1 : ∑ j in Finset.range a.length, a.getD j 0 * (if j ≤ k then v.getD (k - j) 0 else 0)
      = ∑ j in Finset.range (max a.length (k + 1)),
          a.getD j 0 * (if j ≤ k then v.getD (k - j) 0 else 0) := by
    apply Finset.sum_subset (Finset.range_subset.mpr hM1)
    intro j _ hj
    rw [Finset.mem_range, not_lt] at hj
    rw [getD_eq_zero_of_ge hj, zero_mul]
  have h3 : (Finset.range (max a.length (k + 1))).filter (fun j => j ≤ k)
      = Finset.range (k + 1) := by
    ext j
    simp only [Finset.mem_filter, Finset.mem_range]
    omega
  rw [h1, ← h3, Finset.sum_filter]
  apply Finset.sum_congr rfl
  intro j _
  split <;> simp

/-- C2. Convolution engine correctness: for nonempty input profiles `a`, `v`
and positive step `dw`, the scaled full convolution has length
`len(a) + len(v) - 1` and its `k`-th entry is `dw` times
`∑ j ≤ k, a[j]·v[k-j]`, out-of-range indices contributing zero. -/
theorem C2_convolution_engine (a v : List ℝ) (dw : ℝ) (k : ℕ)
    (ha : a ≠ []) (hv : v ≠ []) (hdw : 0 < dw)
    (hk : k < a.length + v.length - 1) :
    (convolveScaled a v dw).length = a.length + v.length - 1 ∧
    (convolveScaled a v dw).getD k 0
      = dw * ∑ j in Finset.range (k + 1), a.getD j 0 * v.getD (k - j) 0 := by
  constructor
  · rw [convolveScaled_eq_range_map, List.length_map, List.length_range]
  · rw [convolveScaled_eq_range_map, getD_range_map _ hk, conv_sum_eq, mul_comm]

theorem C2_convolution_engine_witness :
    ([(1:ℝ)] ≠ [] ∧ (0:ℝ) < 1) ∧
    ((convolveScaled [(1:ℝ)] [(1:ℝ)] 1).length = [(1:ℝ)].length + [(1:ℝ)].length - 1 ∧
      (convolveScaled [(1:ℝ)] [(1:ℝ)] 1).getD 0 0
        = 1 * ∑ j in Finset.range (0 + 1), [(1:ℝ)].getD j 0 * [(1:ℝ)].getD (0 - j) 0) :=
  ⟨⟨by simp, by norm_num⟩,
    C2_convolution_engine [(1:ℝ)] [(1:ℝ)] 1 0 (by simp) (by simp) (by norm_num) (by simp)⟩

/-! Claim C9: nonnegativity of the absorption rate and division safety -/

lemma lorentz_nonneg (x x0 : ℝ) {g : ℝ} (hg : 0 ≤ g) : 0 ≤ Lorentz x x0 g := by
  unfold Lorentz
  have hpi : (0:ℝ) ≤ Real.pi := le_of_lt Real.pi_pos
  positivity

lemma Phi_omega_entry_nonneg {Phi gl gh : ℝ} (hPhi : 0 ≤ Phi) (hgl : 0 ≤ gl) :
    ∀ x ∈ Phi_omega Phi gl gh, 0 ≤ x := by
  intro x hx
  rw [Phi_omega, List.mem_map] at hx
  obtain ⟨w, _, rfl⟩ := hx
  exact mul_nonneg hPhi (lorentz_nonneg _ _ hgl)

lemma sigma_omega_0_entry_nonneg {sg gl gh : ℝ} (hsg : 0 ≤ sg) (hgh : 0 ≤ gh) :
    ∀ x ∈ sigma_omega_0 sg gl gh, 0 ≤ x := by
  intro x hx
  rw [sigma_omega_0, List.mem_map] at hx
  obtain ⟨w, _, rfl⟩ := hx
  have hpi : (0:ℝ) ≤ Real.pi := le_of_lt Real.pi_pos
  exact mul_nonneg (mul_nonneg hsg (by positivity)) (lorentz_nonneg _ _ hgh)

lemma convolveScaled_getD_nonneg {a v : List ℝ} {dw : ℝ}
    (ha : ∀ x ∈ a, 0 ≤ x) (hv : ∀ x ∈ v, 0 ≤ x) (hdw : 0 ≤ dw) (k : ℕ) :
    0 ≤ (convolveScaled a v dw).getD k 0 := by
  rw [convolveScaled_eq_range_map]
  rcases lt_or_ge k (a.length + v.length - 1) with h | h
  · rw [getD_range_map _ h]
    apply mul_nonneg _ hdw
    apply Finset.sum_nonneg
    intro j _
    apply mul_nonneg (getD_nonneg_of_forall ha j)
    split
    · exact getD_nonneg_of_forall hv _
    · exact le_refl 0
  · rw [getD_range_map_ge _ h]

lemma R_omega_0_getD_nonneg {Phi sg gl gh : ℝ} (hPhi : 0 ≤ Phi) (hsg : 0 ≤ sg)
    (hgl : 0 < gl) (hgh : 0 < gh) (k : ℕ) :
    0 ≤ (R_omega_0 Phi sg gl gh).getD k 0 := by
  unfold R_omega_0
  exact convolveScaled_getD_nonneg (Phi_omega_entry_nonneg hPhi (le_of_lt hgl))
    (sigma_omega_0_entry_nonneg hsg (le_of_lt hgh)) (le_of_lt (d_omega_pos hgl hgh)) k

/-- C9. Division safety: with positive linewidths, nonnegative total flux and
cross-section, every entry of the absorption-rate array `R_omega_0` is
nonnegative, so for `Gamma_Ex > 0` the denominator `Gamma_Ex + 2R` of the
excitation fraction is strictly positive and the division is total. -/
theorem C9_division_safety (Phi sg gl gh gEx : ℝ) (k : ℕ)
    (hgl : 0 < gl) (hgh : 0 < gh) (hPhi : 0 ≤ Phi) (hsg : 0 ≤ sg) (hgEx : 0 < gEx) :
    0 ≤ (R_omega_0 Phi sg gl gh).getD k 0 ∧
    0 < gEx + 2 * (R_omega_0 Phi sg gl gh).getD k 0 := by
  have h := R_omega_0_getD_nonneg hPhi hsg hgl hgh k
  exact ⟨h, by linarith⟩

theorem C9_division_safety_witness :
    (0:ℝ) < 1 ∧
    (0 ≤ (R_omega_0 1 1 1 1).getD 0 0 ∧ 0 < 1 + 2 * (R_omega_0 1 1 1 1).getD 0 0) :=
  ⟨by norm_num, C9_division_safety 1 1 1 1 1 0 (by norm_num) (by norm_num)
    (by norm_num) (by norm_num) (by norm_num)⟩

/-! Claim C10: peak normalization of the cross-section profile -/

lemma getD_map_of_lt (f : ℝ → ℝ) (l : List ℝ) {i : ℕ} (h : i < l.length) :
    (l.map f).getD i 0 = f (l.getD i 0) := by
  simp [List.getD_eq_getElem?_getD, List.getElem?_eq_getElem h]

lemma sigma_entry_eq {gh : ℝ} (sg w : ℝ) (hgh : 0 < gh) :
    sg * (Real.pi * gh / 2) * Lorentz w 0 gh
      = sg * (1 / (1 + (w / (gh / 2)) ^ 2)) := by
  unfold Lorentz
  have hA : Real.pi * (gh / 2) ≠ 0 := by positivity
  have key : Real.pi * (gh / 2) * (1 / (Real.pi * (gh / 2))) = 1 :=
    mul_one_div_cancel hA
  calc sg * (Real.pi * gh / 2) * (1 / (Real.pi * (gh / 2)) * (1 / (1 + ((w - 0) / (gh / 2)) ^ 2)))
      = sg * (Real.pi * (gh / 2) * (1 / (Real.pi * (gh / 2)))) * (1 / (1 + ((w - 0) / (gh / 2)) ^ 2)) := by
        ring
    _ = sg * (1 / (1 + ((w - 0) / (gh / 2)) ^ 2)) := by rw [key, mul_one]
    _ = sg * (1 / (1 + (w / (gh / 2)) ^ 2)) := by rw [sub_zero]

lemma sigma_omega_0_getD_le {sg gl gh : ℝ} (hsg : 0 ≤ sg) (hgh : 0 < gh) (k : ℕ) :
    (sigma_omega_0 sg gl gh).getD k 0 ≤ sg := by
  rcases lt_or_ge k (sigma_omega_0 sg gl gh).length with h | h
  · have hlen : k < (omega_0 gl gh).length := by
      rw [sigma_omega_0, List.length_map] at h
      exact h
    rw [sigma_omega_0, getD_map_of_lt _ _ hlen,
      sigma_entry_eq sg ((omega_0 gl gh).getD k 0) hgh]
    have hfrac : 1 / (1 + ((omega_0 gl gh).getD k 0 / (gh / 2)) ^ 2) ≤ 1 := by
      rw [div_le_one (by positivity)]
      nlinarith [sq_nonneg ((omega_0 gl gh).getD k 0 / (gh / 2))]
    calc sg * (1 / (1 + ((omega_0 gl gh).getD k 0 / (gh / 2)) ^ 2)) ≤ sg * 1 :=
          mul_le_mul_of_nonneg_left hfrac hsg
      _ = sg := mul_one sg
  · rw [getD_eq_zero_of_ge h]
    exact hsg

/-- C10 counterexample: with `sigma_peak = 1`, `Gamma_L = Gamma_H = 1`, the value
`sigma_peak` is not an entry of the cross-section array at all (the grid
contains no sample at zero offset), so it cannot be its maximum entry. -/
theorem C10_counterexample : (1:ℝ) ∉ sigma_omega_0 1 1 1 := by
  intro hmem
  rw [sigma_omega_0, List.mem_map] at hmem
  obtain ⟨w, hw, hval⟩ := hmem
  rw [sigma_entry_eq 1 w (by norm_num), one_mul] at hval
  have hd : (0:ℝ) < 1 + (w / ((1:ℝ) / 2)) ^ 2 := by positivity
  rw [div_eq_one_iff_eq (ne_of_gt hd)] at hval
  have hsq : (w / ((1:ℝ) / 2)) ^ 2 = 0 := by linarith
  have hw2 : w / ((1:ℝ) / 2) = 0 := by
    exact sq_eq_zero_iff.mp hsq
  have hw0 : w = 0 := by
    rcases div_eq_zero_iff.mp hw2 with h | h
    · exact h
    · norm_num at h
  subst hw0
  unfold omega_0 arange at hw
  rw [List.mem_map] at hw
  obtain ⟨i, hi, hvi⟩ := hw
  rw [List.mem_range, arangeLen_omega_11] at hi
  unfold d_omega larger_line at hvi
  rw [max_self] at hvi
  have hiv : (i : ℝ) = 300003 / 2 := by
    field_simp at hvi
    linarith
  have h2 : ((2 * i : ℕ) : ℝ) = 300003 := by push_cast; linarith
  have h3 : 2 * i = 300003 := by exact_mod_cast h2
  omega

/-- C10 as amended: the prefactor `π·Γ_H/2` exactly cancels the Lorentzian peak
height, `sigma_peak·(πΓ_H/2)·Lorentz(0,0,Γ_H) = sigma_peak`, and `sigma_peak`
is an upper bound for every entry of the cross-section array; it is however
not attained on the code's grid (zero offset is not a sample), so it is a
strict bound rather than the maximum entry. -/
theorem C10_amended_peak_bound (sg gl gh : ℝ) (k : ℕ)
    (hsg : 0 ≤ sg) (hgl : 0 < gl) (hgh : 0 < gh) :
    sg * (Real.pi * gh / 2) * Lorentz 0 0 gh = sg ∧
    (sigma_omega_0 sg gl gh).getD k 0 ≤ sg := by
  constructor
  · rw [sigma_entry_eq sg 0 hgh]
    norm_num
  · exact sigma_omega_0_getD_le hsg hgh k

theorem C10_amended_peak_bound_witness :
    (0:ℝ) ≤ 1 ∧
    ((1:ℝ) * (Real.pi * 1 / 2) * Lorentz 0 0 1 = 1 ∧
      (sigma_omega_0 1 1 1).getD 0 0 ≤ 1) :=
  ⟨by norm_num, C10_amended_peak_bound 1 1 1 0 (by norm_num) (by norm_num) (by norm_num)⟩

/-! The integrator as an indexed sum (used by claims C5 and C7) -/

lemma Phi_omega_length (Phi gl gh : ℝ) :
    (Phi_omega Phi gl gh).length = (omega gl gh).length := by
  rw [Phi_omega, List.length_map]

lemma sigma_omega_0_length (sg gl gh : ℝ) :
    (sigma_omega_0 sg gl gh).length = (omega_0 gl gh).length := by
  rw [sigma_omega_0, List.length_map]

lemma R_omega_0_length (Phi sg gl gh : ℝ) :
    (R_omega_0 Phi sg gl gh).length
      = (omega gl gh).length + (omega_0 gl gh).length - 1 := by
  rw [R_omega_0, convolveScaled_eq_range_map, List.length_map, List.length_range,
    Phi_omega_length, sigma_omega_0_length]

lemma Gamma_Sc_eq_sum (Phi sg N gl gh gEx gIn : ℝ) :
    Gamma_Sc Phi sg N gl gh gEx gIn
      = gEx * ∑ i in Finset.range ((omega gl gh).length + (omega_0 gl gh).length - 1),
          N * Lorentz ((omega_tot gl gh).getD i 0) 0 gIn * d_omega gl gh
            * FracFn gEx ((R_omega_0 Phi sg gl gh).getD i 0) := by
  unfold Gamma_Sc
  have hNl : N_Inhom_omega_0 N gl gh gIn
      = (List.range ((omega gl gh).length + (omega_0 gl gh).length - 1)).map
          (fun i : ℕ => N * Lorentz ((omega_tot gl gh).getD i 0) 0 gIn) := by
    rw [N_Inhom_omega_0]
    conv_lhs => rw [omega_tot, linspace, List.map_map]
    apply List.map_congr_left
    intro i hi
    rw [List.mem_range] at hi
    have hget : (omega_tot gl gh).getD i 0
        = -(3 * gl) / 2 - 3 * gh / 2 + (i : ℝ)
            * ((3 * gl / 2 + 3 * gh / 2 - (-(3 * gl) / 2 - 3 * gh / 2))
              / ((((omega gl gh).length + (omega_0 gl gh).length - 1 : ℕ) : ℝ) - 1)) := by
      rw [omega_tot]
      exact linspace_getD hi
    rw [hget]
    rfl
  have hFl : Frac_omega_0 Phi sg gl gh gEx
      = (List.range ((omega gl gh).length + (omega_0 gl gh).length - 1)).map
          (fun i : ℕ => FracFn gEx ((R_omega_0 Phi sg gl gh).getD i 0)) := by
    rw [Frac_omega_0]
    conv_lhs =>
      rw [R_omega_0, convolveScaled_eq_range_map, Phi_omega_length, sigma_omega_0_length,
        List.map_map]
    apply List.map_congr_left
    intro i hi
    rw [List.mem_range] at hi
    have hget : (R_omega_0 Phi sg gl gh).getD i 0
        = (∑ j in Finset.range (omega gl gh).length,
            (Phi_omega Phi gl gh).getD j 0
              * (if j ≤ i then (sigma_omega_0 sg gl gh).getD (i - j) 0 else 0))
            * d_omega gl gh := by
      rw [R_omega_0, convolveScaled_eq_range_map, Phi_omega_length, sigma_omega_0_length]
      exact getD_range_map _ hi
    rw [hget]
    rfl
  rw [hNl, hFl, zipWith_range_sum]

/-! Claim C7: inhomogeneous integrator -/

/-- C7. Inhomogeneous integrator correctness: for positive linewidths and rates
and nonnegative atom count, the total scattering rate equals `Gamma_Ex` times
the sum over all combined-axis bins `i` of `n[i]·P_Ex[i]·d_omega`, where
`n[i] = N_total·Lorentz(combined-axis[i], 0, Gamma_In)` and `P_Ex[i]` is the
excitation-fraction array entry. -/
theorem C7_integrator (Phi sg N gl gh gEx gIn : ℝ)
    (hgl : 0 < gl) (hgh : 0 < gh) (hgEx : 0 < gEx) (hgIn : 0 < gIn) (hN : 0 ≤ N) :
    Gamma_Sc Phi sg N gl gh gEx gIn
      = gEx * ∑ i in Finset.range ((omega gl gh).length + (omega_0 gl gh).length - 1),
          N * Lorentz ((omega_tot gl gh).getD i 0) 0 gIn
            * (Frac_omega_0 Phi sg gl gh gEx).getD i 0 * d_omega gl gh := by
  rw [Gamma_Sc_eq_sum]
  congr 1
  apply Finset.sum_congr rfl
  intro i hi
  rw [Finset.mem_range] at hi
  have hFr : (Frac_omega_0 Phi sg gl gh gEx).getD i 0
      = FracFn gEx ((R_omega_0 Phi sg gl gh).getD i 0) := by
    rw [Frac_omega_0, getD_map_of_lt _ _ (by rw [R_omega_0_length]; exact hi)]
  rw [hFr]
  ring

theorem C7_integrator_witness :
    (0:ℝ) < 1 ∧
    Gamma_Sc 1 1 1 1 1 1 1
      = 1 * ∑ i in Finset.range ((omega 1 1).length + (omega_0 1 1).length - 1),
          1 * Lorentz ((omega_tot 1 1).getD i 0) 0 1
            * (Frac_omega_0 1 1 1 1 1).getD i 0 * d_omega 1 1 :=
  ⟨by norm_num, C7_integrator 1 1 1 1 1 1 1 (by norm_num) (by norm_num) (by norm_num)
    (by norm_num) (by norm_num)⟩

/-! Claim C5: scaling monotonicity -/

lemma Phi_omega_getD_smul (Phi gl gh : ℝ) (j : ℕ) :
    (Phi_omega Phi gl gh).getD j 0 = Phi * (Phi_omega 1 gl gh).getD j 0 := by
  rcases lt_or_ge j (omega gl gh).length with h | h
  · rw [Phi_omega, Phi_omega, getD_map_of_lt _ _ h, getD_map_of_lt _ _ h]
    ring
  · rw [getD_eq_zero_of_ge (by rw [Phi_omega_length]; exact h),
      getD_eq_zero_of_ge (by rw [Phi_omega_length]; exact h), mul_zero]

lemma R_omega_0_getD_smul (Phi sg gl gh : ℝ) (k : ℕ) :
    (R_omega_0 Phi sg gl gh).getD k 0 = Phi * (R_omega_0 1 sg gl gh).getD k 0 := by
  rcases lt_or_ge k ((omega gl gh).length + (omega_0 gl gh).length - 1) with h | h
  · have hg1 : (R_omega_0 Phi sg gl gh).getD k 0
        = (∑ j in Finset.range (Phi_omega Phi gl gh).length,
            (Phi_omega Phi gl gh).getD j 0
              * (if j ≤ k then (sigma_omega_0 sg gl gh).getD (k - j) 0 else 0))
            * d_omega gl gh := by
      rw [R_omega_0, convolveScaled_eq_range_map, Phi_omega_length, sigma_omega_0_length]
      exact getD_range_map _ h
    have hg2 : (R_omega_0 1 sg gl gh).getD k 0
        = (∑ j in Finset.range (Phi_omega 1 gl gh).length,
            (Phi_omega 1 gl gh).getD j 0
              * (if j ≤ k then (sigma_omega_0 sg gl gh).getD (k - j) 0 else 0))
            * d_omega gl gh := by
      rw [R_omega_0, convolveScaled_eq_range_map, Phi_omega_length, sigma_omega_0_length]
      exact getD_range_map _ h
    rw [hg1, hg2, Phi_omega_length, Phi_omega_length]
    have hsum : ∑ j in Finset.range (omega gl gh).length,
        (Phi_omega Phi gl gh).getD j 0
          * (if j ≤ k then (sigma_omega_0 sg gl gh).getD (k - j) 0 else 0)
        = Phi * ∑ j in Finset.range (omega gl gh).length,
            (Phi_omega 1 gl gh).getD j 0
              * (if j ≤ k then (sigma_omega_0 sg gl gh).getD (k - j) 0 else 0) := by
      rw [Finset.mul_sum]
      apply Finset.sum_congr rfl
      intro j _
      rw [Phi_omega_getD_smul]
      ring
    rw [hsum]
    ring
  · rw [getD_eq_zero_of_ge (by rw [R_omega_0_length]; exact h),
      getD_eq_zero_of_ge (by rw [R_omega_0_length]; exact h), mul_zero]

/-- C5. Scaling monotonicity: holding the linewidths, cross-section and the
other parameters fixed, the total scattering rate `Gamma_Sc` is monotonically
non-decreasing in the total photon flux and in the total atom count. -/
theorem C5_scaling_monotonicity (gl gh gEx gIn sg N Phi Phi1 Phi2 N1 N2 : ℝ)
    (hgl : 0 < gl) (hgh : 0 < gh) (hgEx : 0 < gEx) (hgIn : 0 < gIn)
    (hsg : 0 ≤ sg) (hN : 0 ≤ N) (hPhi : 0 ≤ Phi)
    (hP1 : 0 ≤ Phi1) (hP12 : Phi1 ≤ Phi2) (hN1 : 0 ≤ N1) (hN12 : N1 ≤ N2) :
    Gamma_Sc Phi1 sg N gl gh gEx gIn ≤ Gamma_Sc Phi2 sg N gl gh gEx gIn ∧
    Gamma_Sc Phi sg N1 gl gh gEx gIn ≤ Gamma_Sc Phi sg N2 gl gh gEx gIn := by
  have hdw := d_omega_pos hgl hgh
  constructor
  · rw [Gamma_Sc_eq_sum, Gamma_Sc_eq_sum]
    apply mul_le_mul_of_nonneg_left _ (le_of_lt hgEx)
    apply Finset.sum_le_sum
    intro i _
    have hL : 0 ≤ N * Lorentz ((omega_tot gl gh).getD i 0) 0 gIn :=
      mul_nonneg hN (lorentz_nonneg _ _ (le_of_lt hgIn))
    apply mul_le_mul_of_nonneg_left _ (mul_nonneg hL (le_of_lt hdw))
    have hbase : 0 ≤ (R_omega_0 1 sg gl gh).getD i 0 :=
      R_omega_0_getD_nonneg (by norm_num) hsg hgl hgh i
    rw [R_omega_0_getD_smul Phi1, R_omega_0_getD_smul Phi2]
    exact fracFn_mono hgEx (mul_nonneg hP1 hbase)
      (mul_le_mul_of_nonneg_right hP12 hbase)
  · rw [Gamma_Sc_eq_sum, Gamma_Sc_eq_sum]
    apply mul_le_mul_of_nonneg_left _ (le_of_lt hgEx)
    apply Finset.sum_le_sum
    intro i _
    have hLz : 0 ≤ Lorentz ((omega_tot gl gh).getD i 0) 0 gIn :=
      lorentz_nonneg _ _ (le_of_lt hgIn)
    have hF : 0 ≤ FracFn gEx ((R_omega_0 Phi sg gl gh).getD i 0) :=
      fracFn_nonneg hgEx (R_omega_0_getD_nonneg hPhi hsg hgl hgh i)
    apply mul_le_mul_of_nonneg_right _ hF
    apply mul_le_mul_of_nonneg_right _ (le_of_lt hdw)
    exact mul_le_mul_of_nonneg_right hN12 hLz

theorem C5_scaling_monotonicity_witness :
    ((1:ℝ) ≤ 2 ∧ (0:ℝ) < 1) ∧
    (Gamma_Sc 1 1 1 1 1 1 1 ≤ Gamma_Sc 2 1 1 1 1 1 1 ∧
      Gamma_Sc 1 1 1 1 1 1 1 ≤ Gamma_Sc 1 1 2 1 1 1 1) :=
  ⟨⟨by norm_num, by norm_num⟩,
    C5_scaling_monotonicity 1 1 1 1 1 1 1 1 2 1 2 (by norm_num) (by norm_num)
      (by norm_num) (by norm_num) (by norm_num) (by norm_num) (by norm_num)
      (by norm_num) (by norm_num) (by norm_num) (by norm_num)⟩

end Samarium
